import Mathlib

/-!
Shallow embedding of the leaderboard backend (Go) for verification.

The registry (`pkg/store` `MemoryStore`) is a Go map from username to user.
We model it as an association list `Store := List User`; the list order plays
the role of a fixed map-iteration order.  Ratings are Go `int`, modelled as
`Int`; the float64 average is modelled as `Rat`.
-/

namespace Leaderboard

/-- Model of `store.User`: a username together with a rating. -/
structure User where
  username : String
  rating : Int
deriving DecidableEq

/-- The registry state: the contents of `MemoryStore.users`, as an
association list (keyed by `username`; list order models iteration order). -/
abbrev Store := List User

/-- Well-formedness of a registry state: usernames are map keys in Go,
hence distinct. -/
def WF (s : Store) : Prop := (s.map User.username).Nodup

instance (s : Store) : Decidable (WF s) := by
  unfold WF
  infer_instance

/-- Model of `MemoryStore.AddUser`: insert or overwrite, with no rating
validation of any kind (the Go code assigns into the map and returns nil). -/
def addUser (s : Store) (username : String) (rating : Int) : Store :=
  if s.any (fun u => u.username == username) then
    s.map (fun u => if u.username = username then ⟨username, rating⟩ else u)
  else
    s ++ [⟨username, rating⟩]

/-- Model of `MemoryStore.GetUser`: point lookup; `none` models the
"user not found" error. -/
def getUser (s : Store) (username : String) : Option User :=
  s.find? (fun u => u.username == username)

/-- Model of `MemoryStore.GetUserCount`. -/
def getUserCount (s : Store) : Nat := s.length

/-- Executable lexicographic comparison of character lists by code point,
modelling the byte-wise lexicographic `<=` Go uses on (UTF-8) strings. -/
def lexLe : List Char → List Char → Bool
  | [], _ => true
  | _ :: _, [] => false
  | x :: xs, y :: ys =>
    if x.toNat < y.toNat then true
    else if y.toNat < x.toNat then false
    else lexLe xs ys

/-- `lexLe` is total. -/
lemma lexLe_total : ∀ a b, lexLe a b = true ∨ lexLe b a = true
  | [], _ => Or.inl rfl
  | _ :: _, [] => Or.inr rfl
  | x :: xs, y :: ys => by
    by_cases h1 : x.toNat < y.toNat
    · left
      simp [lexLe, h1]
    · by_cases h2 : y.toNat < x.toNat
      · right
        simp [lexLe, h2]
      · rcases lexLe_total xs ys with h | h
        · left
          simp [lexLe, h1, h2, h]
        · right
          simp [lexLe, h1, h2, h]

/-- `lexLe` is transitive. -/
lemma lexLe_trans : ∀ a b c, lexLe a b = true → lexLe b c = true → lexLe a c = true
  | [], _, _, _, _ => rfl
  | _ :: _, [], _, hab, _ => by simp [lexLe] at hab
  | _ :: _, _ :: _, [], _, hbc => by simp [lexLe] at hbc
  | x :: xs, y :: ys, z :: zs, hab, hbc => by
    simp only [lexLe] at hab hbc ⊢
    by_cases h1 : x.toNat < y.toNat <;> by_cases h2 : y.toNat < x.toNat <;>
      by_cases h3 : y.toNat < z.toNat <;> by_cases h4 : z.toNat < y.toNat <;>
        simp only [h1, h2, h3, h4, if_true, if_false, if_pos, if_neg,
          not_false_iff] at hab hbc ⊢ <;>
      first
        | omega
        | exact absurd hab (by decide)
        | exact absurd hbc (by decide)
        | (rw [if_pos (by omega : x.toNat < z.toNat)])
        | (rw [if_neg (by omega : ¬x.toNat < z.toNat),
               if_neg (by omega : ¬z.toNat < x.toNat)]
           exact lexLe_trans xs ys zs hab hbc)

/-- `lexLe` is antisymmetric. -/
lemma lexLe_antisymm : ∀ a b, lexLe a b = true → lexLe b a = true → a = b
  | [], [], _, _ => rfl
  | [], _ :: _, _, hba => by simp [lexLe] at hba
  | _ :: _, [], hab, _ => by simp [lexLe] at hab
  | x :: xs, y :: ys, hab, hba => by
    simp only [lexLe] at hab hba
    by_cases h1 : x.toNat < y.toNat
    · rw [if_neg (by omega : ¬y.toNat < x.toNat), if_pos h1] at hba
      exact absurd hba (by simp)
    · by_cases h2 : y.toNat < x.toNat
      · rw [if_neg h1, if_pos h2] at hab
        exact absurd hab (by simp)
      · rw [if_neg h1, if_neg h2] at hab
        rw [if_neg h2, if_neg h1] at hba
        have hxy : x = y := by
          have hn : x.toNat = y.toNat := by omega
          rw [← Char.ofNat_toNat x, ← Char.ofNat_toNat y, hn]
        rw [hxy, lexLe_antisymm xs ys hab hba]

/-- The comparison used by `MemoryStore.GetAllUsers` (and `SearchUsers`):
rating descending, ties broken by username ascending.  This is the reflexive
relation matching the strict `sort.Slice` comparator in the Go code. -/
def userLE (a b : User) : Prop :=
  b.rating < a.rating ∨ (a.rating = b.rating ∧ lexLe a.username.data b.username.data = true)

instance : DecidableRel userLE := fun a b =>
  inferInstanceAs (Decidable (b.rating < a.rating ∨
    (a.rating = b.rating ∧ lexLe a.username.data b.username.data = true)))

instance : IsTotal User userLE where
  total a b := by
    rcases lt_trichotomy a.rating b.rating with h | h | h
    · exact Or.inr (Or.inl h)
    · rcases lexLe_total a.username.data b.username.data with hu | hu
      · exact Or.inl (Or.inr ⟨h, hu⟩)
      · exact Or.inr (Or.inr ⟨h.symm, hu⟩)
    · exact Or.inl (Or.inl h)

instance : IsTrans User userLE where
  trans a b c hab hbc := by
    rcases hab with h1 | ⟨h1, h1u⟩ <;> rcases hbc with h2 | ⟨h2, h2u⟩
    · exact Or.inl (lt_trans h2 h1)
    · refine Or.inl ?_
      rw [← h2]
      exact h1
    · refine Or.inl ?_
      rw [h1]
      exact h2
    · exact Or.inr ⟨h1.trans h2, lexLe_trans _ _ _ h1u h2u⟩

instance : IsAntisymm User userLE where
  antisymm a b hab hba := by
    rcases hab with h1 | ⟨h1, h1u⟩ <;> rcases hba with h2 | ⟨h2, h2u⟩
    · exact absurd (lt_trans h1 h2) (lt_irrefl _)
    · rw [h2] at h1
      exact absurd h1 (lt_irrefl _)
    · rw [h1] at h2
      exact absurd h2 (lt_irrefl _)
    · obtain ⟨ua, ra⟩ := a
      obtain ⟨ub, rb⟩ := b
      simp only at h1 h1u h2u
      have hdata := lexLe_antisymm _ _ h1u h2u
      have husr : ua = ub := congrArg String.mk hdata
      simp [h1, husr]

/-- Model of `MemoryStore.GetAllUsers`: a snapshot of all users sorted by
rating descending with username-ascending tie-break.  `sort.Slice` with a
strict total comparator produces the unique list sorted by `userLE`. -/
def getAllUsers (s : Store) : List User := List.insertionSort userLE s

/-- Count-based rank: 1 plus the number of stored users with a strictly
greater rating (the loop body of `MemoryStore.GetUserRank`). -/
def rankCount (s : Store) (r : Int) : Nat :=
  1 + s.countP (fun u => decide (r < u.rating))

/-- Model of `MemoryStore.GetUserRank`: `none` models the
"user not found" error. -/
def getUserRank (s : Store) (username : String) : Option Nat :=
  (getUser s username).map (fun u => rankCount s u.rating)

/-- Model of `models.LeaderboardEntry`. -/
structure LeaderboardEntry where
  rank : Nat
  username : String
  rating : Int
deriving DecidableEq

/-- Model of `models.LeaderboardResponse`. -/
structure LeaderboardResponse where
  entries : List LeaderboardEntry
  page : Nat
  limit : Nat
  totalUsers : Nat
  hasMore : Bool
deriving DecidableEq

/-- The single-pass rank walk of `LeaderboardService.GetLeaderboard`:
`i` is the loop index, `currentRank` the running rank, `prevRating` the
rating at index `i - 1` (unused when `i = 0`).  The loop body sets
`currentRank = i + 1` whenever the rating differs from the previous one. -/
def rankWalkAux : List User → Nat → Nat → Int → List (Nat × User)
  | [], _, _, _ => []
  | u :: rest, i, currentRank, prevRating =>
    let r := if i ≠ 0 ∧ u.rating ≠ prevRating then i + 1 else currentRank
    (r, u) :: rankWalkAux rest (i + 1) r u.rating

/-- The rank walk started as in the Go loop: `i = 0`, `currentRank = 1`
(the initial `prevRating` is irrelevant because the comparison is guarded
by `i > 0`). -/
def rankWalk (l : List User) : List (Nat × User) := rankWalkAux l 0 1 0

/-- Packaging of a walk entry into a `models.LeaderboardEntry`. -/
def toEntry (p : Nat × User) : LeaderboardEntry := ⟨p.1, p.2.username, p.2.rating⟩

/-- Model of `LeaderboardService.GetLeaderboard`: sorted snapshot, offset
`(page-1)*limit`, early return on `offset >= total`, walk up to
`end = min (offset+limit) total`, keep the entries with index `>= offset`,
`hasMore = end < total`. -/
def getLeaderboard (s : Store) (page limit : Nat) : LeaderboardResponse :=
  let allUsers := getAllUsers s
  let total := allUsers.length
  let offset := (page - 1) * limit
  if total ≤ offset then
    ⟨[], page, limit, total, false⟩
  else
    let e := min (offset + limit) total
    ⟨((rankWalk (allUsers.take e)).drop offset).map toEntry, page, limit, total,
      decide (e < total)⟩

/-- Concatenation of `GetLeaderboard` pages starting at `page`, stopping at
the first response with `hasMore = false`; `fuel` bounds the recursion (any
sufficiently large value gives the process the spec describes). -/
def collectPages (s : Store) (limit : Nat) : Nat → Nat → List LeaderboardEntry
  | 0, _ => []
  | fuel + 1, page =>
    let resp := getLeaderboard s page limit
    if resp.hasMore then resp.entries ++ collectPages s limit fuel (page + 1)
    else resp.entries

/-- The full walk-enriched sorted snapshot (what one big page would return). -/
def allEntries (s : Store) : List LeaderboardEntry :=
  (rankWalk (getAllUsers s)).map toEntry

/-- Contiguous-substring test on character lists, mirroring Go's
`strings.Contains` (the empty needle is contained in everything). -/
def isSubstr (q : List Char) : List Char → Bool
  | [] => q.isEmpty
  | c :: t => q.isPrefixOf (c :: t) || isSubstr q t

/-- Model of `MemoryStore.SearchUsers`: lowercase the query, collect the
case-insensitive substring matches in iteration order, stopping after
`limit` of them, then sort those by the rating-desc/username-asc rule.
Note the truncation happens before the sort, exactly as in the Go loop. -/
def searchUsers (s : Store) (query : String) (limit : Nat) : List User :=
  let q := (query.data.map Char.toLower)
  let results := (s.filter (fun u => isSubstr q (u.username.data.map Char.toLower))).take limit
  List.insertionSort userLE results

/-- Model of `models.UserRankResponse`. -/
structure UserRankResponse where
  username : String
  rating : Int
  rank : Nat
deriving DecidableEq

/-- Model of `LeaderboardService.SearchUser`: `SearchUsers` with limit 50,
each result enriched with `GetUserRank` (whose error is discarded, leaving
the Go zero value 0). -/
def searchUser (s : Store) (query : String) : List UserRankResponse :=
  (searchUsers s query 50).map
    (fun u => ⟨u.username, u.rating, (getUserRank s u.username).getD 0⟩)

/-- Spec-side model of `Search`, written from the spec's words (for the
refinement comparison of claim C5): filter the registry by case-insensitive
substring match, order all matches by the rating-desc/username-asc rule,
truncate to the 50-match limit, and attach to each entrant the rank value
the full unfiltered ranking assigns to it. -/
def searchSpec (s : Store) (query : String) : List UserRankResponse :=
  let q := (query.data.map Char.toLower)
  let hits := s.filter (fun u => isSubstr q (u.username.data.map Char.toLower))
  ((List.insertionSort userLE hits).take 50).map
    (fun u => ⟨u.username, u.rating, (getUserRank s u.username).getD 0⟩)

/-- Model of `MemoryStore.GetStats`: `(total, min, max, average)`.  The Go
code returns `(0, 0, 0, 0)` on an empty registry, and otherwise folds over
the users with accumulators starting at `min = 5000`, `max = 100`,
`sum = 0`.  The float64 average is modelled as a rational. -/
def getStats (s : Store) : Nat × Int × Int × Rat :=
  if s.length = 0 then (0, 0, 0, 0)
  else
    let acc := s.foldl
      (fun acc u =>
        ( if u.rating < acc.1 then u.rating else acc.1,
          if acc.2.1 < u.rating then u.rating else acc.2.1,
          acc.2.2 + u.rating))
      ((5000 : Int), (100 : Int), (0 : Int))
    (s.length, acc.1, acc.2.1, (acc.2.2 : Rat) / (s.length : Rat))

/-- Model of `models.StatsResponse`. -/
structure StatsResponse where
  totalUsers : Nat
  minRating : Rat
  maxRating : Rat
  averageRating : Rat
deriving DecidableEq

/-- Model of `LeaderboardService.GetStats`: wraps the store stats in a
response; note the service has no error path at all. -/
def serviceGetStats (s : Store) : StatsResponse :=
  let t := getStats s
  ⟨t.1, (t.2.1 : Rat), (t.2.2.1 : Rat), t.2.2.2⟩

/-- Model of `LeaderboardService.UpdateScore`: look the user up, fail with
the "user not found" error (first component) leaving the store unchanged,
otherwise overwrite via `AddUser`. -/
def updateScore (s : Store) (username : String) (newRating : Int) :
    Option String × Store :=
  match getUser s username with
  | none => (some "user not found", s)
  | some _ => (none, addUser s username newRating)

/-- Model of the gin binding tag on `models.UpdateScoreRequest.Rating`,
`binding:"required,min=100,max=5000"`: `required` on an integer field
rejects the zero value, `min`/`max` bound it inclusively.  This HTTP-layer
validation is the only rating-range check in the repository. -/
def updateScoreRequestValid (rating : Int) : Bool :=
  decide (rating ≠ 0) && decide (100 ≤ rating) && decide (rating ≤ 5000)

/-- The rank the single-pass walk of `GetLeaderboard` assigns to a username:
locate the username's entry in the walk over the full sorted snapshot. -/
def walkRankOf (s : Store) (username : String) : Option Nat :=
  ((rankWalk (getAllUsers s)).find? (fun p => p.2.username == username)).map Prod.fst

/-- The registry state of the spec's concrete scenario, built by upserting
A:5000, B:3000, C:3000, D:100 into an empty registry. -/
def demoStore : Store :=
  addUser (addUser (addUser (addUser [] "A" 5000) "B" 3000) "C" 3000) "D" 100

/-- A registry with 51 users all matching the query "u": u100 … u149 with
rating 100 (inserted first) and u150 with rating 200 (inserted last). -/
def bigStore : Store :=
  (List.range 51).map (fun i => ⟨"u" ++ toString (100 + i), if i = 50 then 200 else 100⟩)

/-! ### Helper lemmas about the registry operations -/

/-- Looking up the overwritten key in the overwrite branch of `addUser`. -/
lemma find?_map_update (n : String) (r : Int) :
    ∀ s : Store, s.any (fun u => u.username == n) = true →
      (s.map (fun u => if u.username = n then (⟨n, r⟩ : User) else u)).find?
        (fun u => u.username == n) = some ⟨n, r⟩
  | [], h => by simp at h
  | x :: t, h => by
    by_cases hx : x.username = n
    · simp [hx]
    · have ht : t.any (fun u => u.username == n) = true := by
        rw [List.any_cons] at h
        simpa [hx] using h
      have ih := find?_map_update n r t ht
      simp [hx, ih]

/-- Looking up a different key is unaffected by the overwrite branch. -/
lemma find?_map_update_ne (n m : String) (r : Int) (h : m ≠ n) :
    ∀ s : Store, (s.map (fun u => if u.username = n then (⟨n, r⟩ : User) else u)).find?
        (fun u => u.username == m) = s.find? (fun u => u.username == m)
  | [] => by simp
  | x :: t => by
    have ih := find?_map_update_ne n m r h t
    by_cases hx : x.username = n
    · have h1 : ((⟨n, r⟩ : User).username == m) = false := by
        rw [beq_eq_false_iff_ne]
        exact fun hh => h hh.symm
      have h2 : (x.username == m) = false := by
        rw [beq_eq_false_iff_ne, hx]
        exact fun hh => h hh.symm
      simp only [List.map_cons, if_pos hx, List.find?_cons, h1, h2]
      exact ih
    · by_cases hxm : x.username = m
      · have hb : (x.username == m) = true := by
          rw [beq_iff_eq]
          exact hxm
        simp only [List.map_cons, if_neg hx, List.find?_cons, hb]
      · have hb : (x.username == m) = false := by
          rw [beq_eq_false_iff_ne]
          exact hxm
        simp only [List.map_cons, if_neg hx, List.find?_cons, hb]
        exact ih

/-- After `addUser s n r`, looking up `n` yields exactly `⟨n, r⟩`. -/
lemma getUser_addUser_self (s : Store) (n : String) (r : Int) :
    getUser (addUser s n r) n = some ⟨n, r⟩ := by
  unfold addUser getUser
  by_cases hany : s.any (fun u => u.username == n)
  · rw [if_pos hany]
    exact find?_map_update n r s hany
  · rw [if_neg hany, List.find?_append]
    have hnone : s.find? (fun u => u.username == n) = none := by
      rw [List.find?_eq_none]
      intro x hx hbx
      exact hany (List.any_eq_true.mpr ⟨x, hx, hbx⟩)
    rw [hnone]
    simp

/-- `addUser s n r` does not change the lookup of any other key. -/
lemma getUser_addUser_other (s : Store) (n m : String) (r : Int) (h : m ≠ n) :
    getUser (addUser s n r) m = getUser s m := by
  unfold addUser getUser
  by_cases hany : s.any (fun u => u.username == n)
  · rw [if_pos hany]
    exact find?_map_update_ne n m r h s
  · rw [if_neg hany, List.find?_append]
    have hsingle : ([(⟨n, r⟩ : User)].find? (fun u => u.username == m)) = none := by
      rw [List.find?_eq_none]
      intro x hx hbx
      rw [List.mem_singleton] at hx
      subst hx
      rw [beq_iff_eq] at hbx
      exact h hbx.symm
    rw [hsingle, Option.or_none]

/-- Strict monotonicity of `countP`: a pointwise implication together with
one element counted by `q` but not by `p` makes the count strictly grow. -/
lemma countP_lt_of_exists {α : Type} (p q : α → Bool) :
    ∀ l : List α, (∀ x ∈ l, p x = true → q x = true) →
    ∀ a, a ∈ l → q a = true → p a = false → l.countP p < l.countP q
  | [], _, a, ha, _, _ => absurd ha (List.not_mem_nil a)
  | x :: t, hmono, a, ha, hqa, hpa => by
    rcases List.mem_cons.mp ha with rfl | hat
    · have h1 : List.countP p (a :: t) = List.countP p t :=
        List.countP_cons_of_neg p t (by simp [hpa])
      have h2 : List.countP q (a :: t) = List.countP q t + 1 :=
        List.countP_cons_of_pos q t hqa
      have hle : List.countP p t ≤ List.countP q t :=
        List.countP_mono_left (fun y hy => hmono y (List.mem_cons_of_mem _ hy))
      omega
    · have ht := countP_lt_of_exists p q t
        (fun y hy H => hmono y (List.mem_cons_of_mem _ hy) H) a hat hqa hpa
      by_cases hpx : p x = true
      · have hqx := hmono x (List.mem_cons_self x t) hpx
        have h1 : List.countP p (x :: t) = List.countP p t + 1 :=
          List.countP_cons_of_pos p t hpx
        have h2 : List.countP q (x :: t) = List.countP q t + 1 :=
          List.countP_cons_of_pos q t hqx
        omega
      · have h1 : List.countP p (x :: t) = List.countP p t :=
          List.countP_cons_of_neg p t hpx
        by_cases hqx : q x = true
        · have h2 : List.countP q (x :: t) = List.countP q t + 1 :=
            List.countP_cons_of_pos q t hqx
          omega
        · have h2 : List.countP q (x :: t) = List.countP q t :=
            List.countP_cons_of_neg q t hqx
          omega

/-! ### The sorted snapshot and the rank walk -/

/-- The sorted snapshot is a permutation of the registry contents. -/
lemma getAllUsers_perm (s : Store) : (getAllUsers s).Perm s :=
  List.perm_insertionSort userLE s

/-- The sorted snapshot is sorted by the rating-desc/username-asc rule. -/
lemma getAllUsers_sorted (s : Store) : (getAllUsers s).Sorted userLE :=
  List.sorted_insertionSort userLE s

/-- `userLE`-sortedness makes the ratings nonincreasing along the list. -/
lemma ratings_antitone {l : List User} (h : l.Sorted userLE) :
    l.Pairwise (fun a b => b.rating ≤ a.rating) :=
  List.Pairwise.imp
    (fun hab => by
      rcases hab with h1 | ⟨h1, _⟩
      · exact le_of_lt h1
      · exact le_of_eq h1.symm)
    h

/-- The walk only decorates the list: second components give it back. -/
lemma rankWalkAux_map_snd :
    ∀ (l : List User) (i c : Nat) (p : Int), (rankWalkAux l i c p).map Prod.snd = l
  | [], _, _, _ => rfl
  | u :: rest, i, c, p => by
    simp only [rankWalkAux, List.map_cons]
    rw [rankWalkAux_map_snd rest]

/-- Second components of the started walk give back the list. -/
lemma rankWalk_map_snd (l : List User) : (rankWalk l).map Prod.snd = l :=
  rankWalkAux_map_snd l 0 1 0

/-- The walk preserves length. -/
lemma rankWalk_length (l : List User) : (rankWalk l).length = l.length := by
  have h := congrArg List.length (rankWalk_map_snd l)
  simpa using h

/-- The walk is a streaming pass: walking a prefix is a prefix of the walk. -/
lemma rankWalkAux_take :
    ∀ (l : List User) (n i c : Nat) (p : Int),
      rankWalkAux (l.take n) i c p = (rankWalkAux l i c p).take n
  | [], n, _, _, _ => by simp [rankWalkAux]
  | _ :: _, 0, _, _, _ => by simp [rankWalkAux]
  | u :: rest, n + 1, i, c, p => by
    simp only [List.take_succ_cons, rankWalkAux]
    rw [rankWalkAux_take rest n]

/-- Prefix form of `rankWalkAux_take` for the started walk. -/
lemma rankWalk_take (l : List User) (n : Nat) :
    rankWalk (l.take n) = (rankWalk l).take n :=
  rankWalkAux_take l n 0 1 0

/-- Taking up to `min (offset+lim) length` then dropping `offset` is the
page window `[offset, offset+lim)`. -/
lemma take_window {α : Type} (X : List α) (offset lim : Nat) :
    (X.take (min (offset + lim) X.length)).drop offset = (X.drop offset).take lim := by
  rw [List.take_drop]
  have h : X.take (min (offset + lim) X.length) = X.take (offset + lim) := by
    rcases le_total (offset + lim) X.length with h | h
    · rw [min_eq_left h]
    · rw [min_eq_right h, List.take_length, List.take_of_length_le h]
  rw [h]

/-- Invariant of the single-pass walk over a rating-descending list: every
element gets paired with 1 plus the number of strictly higher-rated elements
of the full list (competition ranking).  `pre` is the already-walked prefix,
`curRank` the running rank and `prevRating` the last rating seen. -/
lemma rankWalkAux_sorted (full : List User)
    (hsort : full.Pairwise (fun a b => b.rating ≤ a.rating)) :
    ∀ (rest pre : List User) (curRank : Nat) (prevRating : Int),
      full = pre ++ rest →
      (pre = [] → curRank = 1) →
      (pre ≠ [] →
        (∀ v ∈ pre, prevRating ≤ v.rating) ∧
        (∀ w ∈ rest, w.rating ≤ prevRating) ∧
        curRank = 1 + full.countP (fun v => decide (prevRating < v.rating))) →
      rankWalkAux rest pre.length curRank prevRating
        = rest.map (fun u => (1 + full.countP (fun v => decide (u.rating < v.rating)), u))
  | [], _, _, _, _, _, _ => rfl
  | u :: rest, pre, curRank, prevRating, hfull, h0, hpos => by
    have hsplit := List.pairwise_append.mp (hfull ▸ hsort)
    have hcross : ∀ a ∈ pre, ∀ b ∈ u :: rest, b.rating ≤ a.rating := hsplit.2.2
    have hhead : ∀ w ∈ rest, w.rating ≤ u.rating :=
      (List.pairwise_cons.mp hsplit.2.1).1
    have hcount0 : (u :: rest).countP (fun v => decide (u.rating < v.rating)) = 0 := by
      rw [List.countP_eq_zero]
      intro a ha
      rcases List.mem_cons.mp ha with rfl | ha
      · simp
      · simpa using not_lt_of_le (hhead a ha)
    have hr : (if pre.length ≠ 0 ∧ u.rating ≠ prevRating then pre.length + 1 else curRank)
        = 1 + full.countP (fun v => decide (u.rating < v.rating)) := by
      by_cases hpre : pre = []
      · subst hpre
        simp only [List.length_nil, ne_eq, not_true_eq_false, false_and, if_false]
        have hz : full.countP (fun v => decide (u.rating < v.rating)) = 0 := by
          rw [hfull]
          simpa using hcount0
        rw [h0 rfl, hz]
      · obtain ⟨hpre_ge, hrest_le, hc⟩ := hpos hpre
        have hup : u.rating ≤ prevRating := hrest_le u (List.mem_cons_self u rest)
        by_cases heq : u.rating = prevRating
        · rw [if_neg (fun hh => hh.2 heq)]
          rw [hc, heq]
        · have hlt : u.rating < prevRating := lt_of_le_of_ne hup heq
          have hlen0 : pre.length ≠ 0 := by
            intro hz
            exact hpre (List.eq_nil_of_length_eq_zero hz)
          rw [if_pos ⟨hlen0, heq⟩]
          have hcpre : pre.countP (fun v => decide (u.rating < v.rating)) = pre.length := by
            rw [List.countP_eq_length]
            intro v hv
            simpa using lt_of_lt_of_le hlt (hpre_ge v hv)
          have : full.countP (fun v => decide (u.rating < v.rating)) = pre.length := by
            rw [hfull, List.countP_append, hcpre, hcount0]
            omega
          rw [this]
          omega
    simp only [rankWalkAux, List.map_cons]
    rw [hr]
    congr 1
    have hrec := rankWalkAux_sorted full hsort rest (pre ++ [u])
      (1 + full.countP (fun v => decide (u.rating < v.rating))) u.rating
      (by rw [hfull, List.append_assoc]; rfl)
      (by simp)
      (fun _ => by
        refine ⟨?_, hhead, rfl⟩
        intro v hv
        rcases List.mem_append.mp hv with hv | hv
        · exact hcross v hv u (List.mem_cons_self u rest)
        · simp at hv
          subst hv
          exact le_refl _)
    rw [List.length_append, List.length_singleton] at hrec
    exact hrec

/-- Over a rating-descending list, the started walk pairs every element with
its competition rank. -/
lemma rankWalk_eq_map {l : List User}
    (hsort : l.Pairwise (fun a b => b.rating ≤ a.rating)) :
    rankWalk l = l.map (fun u => (1 + l.countP (fun v => decide (u.rating < v.rating)), u)) := by
  have h := rankWalkAux_sorted l hsort l [] 1 0 rfl (fun _ => rfl)
    (fun hne => absurd rfl hne)
  simpa [rankWalk] using h

/-- Key lookups agree across permutations of a registry with distinct
usernames (they both return the unique matching user, or both fail). -/
lemma find?_eq_of_perm_nodup {l l' : Store} (hp : l.Perm l')
    (hnd : (l.map User.username).Nodup) (name : String) :
    l.find? (fun u => u.username == name) = l'.find? (fun u => u.username == name) := by
  cases hfl : l.find? (fun u => u.username == name) with
  | none =>
    symm
    rw [List.find?_eq_none] at hfl ⊢
    intro x hx
    exact hfl x (hp.mem_iff.mpr hx)
  | some a =>
    have hpa := List.find?_some hfl
    have hma := List.mem_of_find?_eq_some hfl
    cases hfl2 : l'.find? (fun u => u.username == name) with
    | none =>
      rw [List.find?_eq_none] at hfl2
      exact absurd hpa (hfl2 a (hp.mem_iff.mp hma))
    | some b =>
      have hpb := List.find?_some hfl2
      have hmb : b ∈ l := hp.mem_iff.mpr (List.mem_of_find?_eq_some hfl2)
      have hab : a = b := by
        apply List.inj_on_of_nodup_map hnd hma hmb
        rw [beq_iff_eq] at hpa hpb
        rw [hpa, hpb]
      rw [hab]

/-- Total size of the walk-enriched snapshot equals the registry size. -/
lemma allEntries_length (s : Store) : (allEntries s).length = s.length := by
  unfold allEntries
  rw [List.length_map, rankWalk_length]
  exact (getAllUsers_perm s).length_eq

/-- Closed form of `getLeaderboard`: the entries are the window
`[offset, offset+limit)` of the walk-enriched snapshot, and `hasMore` is
`offset + limit < total` (both branches of the Go code collapse to this). -/
lemma getLeaderboard_resp (s : Store) (page limit : Nat) :
    getLeaderboard s page limit =
      ⟨((allEntries s).drop ((page - 1) * limit)).take limit, page, limit, s.length,
        decide ((page - 1) * limit + limit < s.length)⟩ := by
  have htot : (getAllUsers s).length = s.length := (getAllUsers_perm s).length_eq
  have hAE : (allEntries s).length = s.length := allEntries_length s
  unfold getLeaderboard
  by_cases hoff : (getAllUsers s).length ≤ (page - 1) * limit
  · rw [if_pos hoff]
    have hdrop : (allEntries s).drop ((page - 1) * limit) = [] :=
      List.drop_eq_nil_of_le (by omega)
    have hmore : ¬((page - 1) * limit + limit < s.length) := by omega
    rw [hdrop]
    simp [htot, hmore]
  · rw [if_neg hoff]
    dsimp only
    have hwin := take_window (allEntries s) ((page - 1) * limit) limit
    rw [hAE] at hwin
    have hentries :
        ((rankWalk ((getAllUsers s).take
            (min ((page - 1) * limit + limit) (getAllUsers s).length))).drop
              ((page - 1) * limit)).map toEntry
          = ((allEntries s).drop ((page - 1) * limit)).take limit := by
      rw [rankWalk_take, htot, List.map_drop, List.map_take]
      rw [show ((rankWalk (getAllUsers s)).map toEntry) = allEntries s from rfl]
      exact hwin
    rw [hentries, htot]
    have hbool : decide (min ((page - 1) * limit + limit) (List.length s) < List.length s)
        = decide ((page - 1) * limit + limit < List.length s) := by
      rw [decide_eq_decide]
      omega
    rw [hbool]

/-- Concatenating pages from `page` onwards (with enough fuel to reach the
first `hasMore = false` response) yields exactly the tail of the snapshot
from offset `(page-1)*limit`. -/
lemma collectPages_eq (s : Store) (limit : Nat) (hl : 1 ≤ limit) :
    ∀ (fuel page : Nat), 1 ≤ page →
      s.length ≤ (page - 1) * limit + fuel * limit →
      collectPages s limit fuel page = (allEntries s).drop ((page - 1) * limit)
  | 0, page, _, hfuel => by
    simp only [collectPages]
    symm
    apply List.drop_eq_nil_of_le
    rw [allEntries_length]
    simpa using hfuel
  | fuel + 1, page, hp, hfuel => by
    have e1 : (fuel + 1) * limit = fuel * limit + limit := Nat.succ_mul fuel limit
    have e2 : (page + 1 - 1) * limit = (page - 1) * limit + limit := by
      cases page with
      | zero => exact absurd hp (by omega)
      | succ p => simp [Nat.succ_mul]
    simp only [collectPages, getLeaderboard_resp]
    by_cases hm : (page - 1) * limit + limit < s.length
    · rw [if_pos (by simpa using hm)]
      have hrec := collectPages_eq s limit hl fuel (page + 1) (by omega)
        (by rw [e2]; rw [e1] at hfuel; omega)
      rw [e2] at hrec
      rw [hrec]
      rw [show (allEntries s).drop ((page - 1) * limit + limit)
            = ((allEntries s).drop ((page - 1) * limit)).drop limit from
          (List.drop_drop limit ((page - 1) * limit) (allEntries s)).symm]
      exact List.take_append_drop limit ((allEntries s).drop ((page - 1) * limit))
    · rw [if_neg (by simpa using hm)]
      apply List.take_of_length_le
      rw [List.length_drop, allEntries_length]
      omega

/-- Projecting the user fields out of a decorated slice forgets the ranks. -/
lemma walk_slice_proj (W : List (Nat × User)) (off lim : Nat) :
    (((W.map toEntry).drop off).take lim).map (fun en => (en.username, en.rating))
      = (((W.map Prod.snd).drop off).take lim).map (fun u => (u.username, u.rating)) := by
  rw [← List.map_drop, ← List.map_take, List.map_map,
      ← List.map_drop, ← List.map_take, List.map_map]
  rfl

/-! ### Claims -/

/-- C6 counterexample: contrary to the claim, the core `AddUser` accepts
ratings 99 and 5001 and mutates the registry (no `InvalidRating` failure
exists at the store level). -/
theorem C6_counterexample :
    addUser ([] : Store) "A" 99 = [⟨"A", 99⟩] ∧
    addUser ([] : Store) "A" 5001 = [⟨"A", 5001⟩] := by
  constructor <;> rfl

/-- C6 (amended): the rating bounds [100, 5000] are enforced only by the
HTTP-layer request validation (`models.UpdateScoreRequest`'s binding tag),
which rejects 99 and 5001 and accepts 100 and 5000; the core `AddUser`
itself never fails and stores any rating unchanged. -/
theorem C6_validation_layer :
    updateScoreRequestValid 99 = false ∧
    updateScoreRequestValid 5001 = false ∧
    updateScoreRequestValid 100 = true ∧
    updateScoreRequestValid 5000 = true ∧
    ∀ (s : Store) (n : String) (r : Int), getUser (addUser s n r) n = some ⟨n, r⟩ := by
  refine ⟨by decide, by decide, by decide, by decide, ?_⟩
  intro s n r
  exact getUser_addUser_self s n r

/-- C7 counterexample: on the empty registry the stats path returns a
successful zero-valued response (total 0, min 0, max 0, average 0); no
distinct `EmptyRegistry` signal exists anywhere on this path. -/
theorem C7_counterexample : serviceGetStats ([] : Store) = ⟨0, 0, 0, 0⟩ := by
  decide

/-- C7 (amended): when the registry contains zero entrants, `GetStats`
returns zero-valued statistics (and no error) instead of signalling
`EmptyRegistry`. -/
theorem C7_empty_stats (s : Store) (h : getUserCount s = 0) :
    serviceGetStats s = ⟨0, 0, 0, 0⟩ := by
  have hs : s = [] := List.length_eq_zero.mp h
  subst hs
  decide

/-- Witness for C7_empty_stats at the empty registry. -/
theorem C7_empty_stats_witness :
    getUserCount ([] : Store) = 0 ∧ serviceGetStats ([] : Store) = ⟨0, 0, 0, 0⟩ :=
  ⟨rfl, C7_empty_stats [] rfl⟩

/-- C9: rank is strictly order-reversing in rating; users with strictly
greater rating get strictly smaller rank, and equal ratings get equal
ranks, on any registry state. -/
theorem C9_rank_order (s : Store) (nA nB : String) (uA uB : User)
    (hA : getUser s nA = some uA) (hB : getUser s nB = some uB) (hne : nA ≠ nB) :
    (uB.rating < uA.rating →
      ∃ rA rB, getUserRank s nA = some rA ∧ getUserRank s nB = some rB ∧ rA < rB) ∧
    (uA.rating = uB.rating → getUserRank s nA = getUserRank s nB) := by
  constructor
  · intro hlt
    refine ⟨rankCount s uA.rating, rankCount s uB.rating, ?_, ?_, ?_⟩
    · simp [getUserRank, hA]
    · simp [getUserRank, hB]
    · unfold rankCount
      have hmem : uA ∈ s := List.mem_of_find?_eq_some hA
      have hcount := countP_lt_of_exists
        (fun u => decide (uA.rating < u.rating))
        (fun u => decide (uB.rating < u.rating)) s
        (fun x _ H => by
          rw [decide_eq_true_eq] at H
          rw [decide_eq_true_eq]
          exact lt_trans hlt H)
        uA hmem (by simpa using hlt) (by simp)
      omega
  · intro heq
    simp [getUserRank, hA, hB, rankCount, heq]

/-- Witness for C9_rank_order: a concrete three-user registry exercising
both the strict case and the tie case. -/
theorem C9_rank_order_witness :
    (∃ rA rB, getUserRank [⟨"A", 200⟩, ⟨"B", 100⟩, ⟨"C", 100⟩] "A" = some rA ∧
      getUserRank [⟨"A", 200⟩, ⟨"B", 100⟩, ⟨"C", 100⟩] "B" = some rB ∧ rA < rB) ∧
    getUserRank [⟨"A", 200⟩, ⟨"B", 100⟩, ⟨"C", 100⟩] "B" =
      getUserRank [⟨"A", 200⟩, ⟨"B", 100⟩, ⟨"C", 100⟩] "C" :=
  ⟨(C9_rank_order [⟨"A", 200⟩, ⟨"B", 100⟩, ⟨"C", 100⟩] "A" "B" ⟨"A", 200⟩ ⟨"B", 100⟩
      (by decide) (by decide) (by decide)).1 (by decide),
   (C9_rank_order [⟨"A", 200⟩, ⟨"B", 100⟩, ⟨"C", 100⟩] "B" "C" ⟨"B", 100⟩ ⟨"C", 100⟩
      (by decide) (by decide) (by decide)).2 rfl⟩

/-- C10: the service `UpdateScore` fails with the not-found error and leaves
the registry unchanged when the username is absent; when the username is
present (and the new rating is in range) it overwrites exactly that user's
rating and changes no other lookup. -/
theorem C10_updateScore (s : Store) (username : String) (r : Int) :
    (getUser s username = none →
      updateScore s username r = (some "user not found", s)) ∧
    (∀ u, getUser s username = some u → 100 ≤ r → r ≤ 5000 →
      updateScore s username r = (none, addUser s username r) ∧
      getUser (addUser s username r) username = some ⟨username, r⟩ ∧
      ∀ m, m ≠ username → getUser (addUser s username r) m = getUser s m) := by
  constructor
  · intro h
    unfold updateScore
    rw [h]
  · intro u hu _ _
    refine ⟨?_, getUser_addUser_self s username r, fun m hm => getUser_addUser_other s username m r hm⟩
    unfold updateScore
    rw [hu]

/-- C1: for every username present in the registry, the count-based rank of
`MemoryStore.GetUserRank` coincides with the rank the single-pass walk of
`GetLeaderboard` assigns to that username over the sorted snapshot. -/
theorem C1_rank_equivalence (s : Store) (hwf : WF s) (username : String) (u : User)
    (hu : getUser s username = some u) :
    walkRankOf s username = getUserRank s username := by
  have hanti := ratings_antitone (getAllUsers_sorted s)
  have hmap := rankWalk_eq_map hanti
  have hnd : ((getAllUsers s).map User.username).Nodup :=
    ((getAllUsers_perm s).map User.username).nodup_iff.mpr hwf
  have hfind : (getAllUsers s).find? (fun u => u.username == username)
      = s.find? (fun u => u.username == username) :=
    find?_eq_of_perm_nodup (getAllUsers_perm s) hnd username
  have hu' : s.find? (fun u => u.username == username) = some u := hu
  unfold walkRankOf getUserRank
  rw [hmap, List.find?_map]
  have hcomp : ((fun p : Nat × User => p.2.username == username) ∘
      (fun u : User =>
        (1 + (getAllUsers s).countP (fun v => decide (u.rating < v.rating)), u)))
      = (fun u : User => u.username == username) := rfl
  rw [hcomp, hfind, hu']
  have hcnt : (getAllUsers s).countP (fun v => decide (u.rating < v.rating))
      = s.countP (fun v => decide (u.rating < v.rating)) :=
    (getAllUsers_perm s).countP_eq (fun v => decide (u.rating < v.rating))
  simp [getUser, hu', rankCount, hcnt]

/-- Witness for C1_rank_equivalence on a concrete three-user registry. -/
theorem C1_rank_equivalence_witness :
    WF [⟨"B", 100⟩, ⟨"A", 200⟩, ⟨"C", 100⟩] ∧
    walkRankOf [⟨"B", 100⟩, ⟨"A", 200⟩, ⟨"C", 100⟩] "C"
      = getUserRank [⟨"B", 100⟩, ⟨"A", 200⟩, ⟨"C", 100⟩] "C" :=
  ⟨by decide,
   C1_rank_equivalence [⟨"B", 100⟩, ⟨"A", 200⟩, ⟨"C", 100⟩] (by decide) "C" ⟨"C", 100⟩
     (by decide)⟩

/-- C2: the sorted snapshot contains exactly the registry's entrants, is
ordered by rating descending with username-ascending tie-break (`userLE`),
and that ordering characterises it uniquely (total, deterministic order). -/
theorem C2_snapshot_order (s : Store) :
    (getAllUsers s).Perm s ∧
    (getAllUsers s).Sorted userLE ∧
    ∀ l : List User, l.Perm s → l.Sorted userLE → l = getAllUsers s := by
  refine ⟨getAllUsers_perm s, getAllUsers_sorted s, ?_⟩
  intro l hp hs
  exact List.eq_of_perm_of_sorted (hp.trans (getAllUsers_perm s).symm) hs
    (getAllUsers_sorted s)

/-- Witness for C2_snapshot_order on a concrete two-user registry,
instantiating the uniqueness part at the explicitly sorted list. -/
theorem C2_snapshot_order_witness :
    (getAllUsers [⟨"B", 100⟩, ⟨"A", 200⟩]).Perm [⟨"B", 100⟩, ⟨"A", 200⟩] ∧
    [⟨"A", 200⟩, ⟨"B", 100⟩] = getAllUsers [⟨"B", 100⟩, ⟨"A", 200⟩] :=
  ⟨(C2_snapshot_order [⟨"B", 100⟩, ⟨"A", 200⟩]).1,
   (C2_snapshot_order [⟨"B", 100⟩, ⟨"A", 200⟩]).2.2 [⟨"A", 200⟩, ⟨"B", 100⟩]
     (by decide)
     (show List.Sorted userLE [⟨"A", 200⟩, ⟨"B", 100⟩] from
       (by decide : List.Pairwise userLE [⟨"A", 200⟩, ⟨"B", 100⟩]))⟩

/-- C3: for page ≥ 1 and limit in [1,100], `GetLeaderboard` returns the
snapshot window `[offset, offset+limit)` with `offset = (page-1)*limit`,
echoes page and limit, reports the registry size, and sets
`hasMore = offset+limit < total`; when `offset ≥ total` the entry list is
empty and `hasMore` is false rather than an error. -/
theorem C3_pagination (s : Store) (page limit : Nat)
    (hp : 1 ≤ page) (h1 : 1 ≤ limit) (h2 : limit ≤ 100) :
    (getLeaderboard s page limit).page = page ∧
    (getLeaderboard s page limit).limit = limit ∧
    (getLeaderboard s page limit).totalUsers = getUserCount s ∧
    (getLeaderboard s page limit).hasMore
      = decide ((page - 1) * limit + limit < getUserCount s) ∧
    ((getLeaderboard s page limit).entries.map (fun en => (en.username, en.rating))
      = (((getAllUsers s).drop ((page - 1) * limit)).take limit).map
          (fun u => (u.username, u.rating))) ∧
    (getUserCount s ≤ (page - 1) * limit →
      (getLeaderboard s page limit).entries = [] ∧
      (getLeaderboard s page limit).hasMore = false) := by
  rw [getLeaderboard_resp]
  refine ⟨rfl, rfl, rfl, rfl, ?_, ?_⟩
  · have h := walk_slice_proj (rankWalk (getAllUsers s)) ((page - 1) * limit) limit
    rw [rankWalk_map_snd] at h
    exact h
  · intro hle
    have hle' : s.length ≤ (page - 1) * limit := hle
    constructor
    · rw [List.drop_eq_nil_of_le (by rw [allEntries_length]; omega), List.take_nil]
    · have : ¬((page - 1) * limit + limit < s.length) := by omega
      simpa using this

/-- Witness for C3_pagination at the concrete scenario registry. -/
theorem C3_pagination_witness :
    (getLeaderboard demoStore 1 2).page = 1 ∧
    (getLeaderboard demoStore 1 2).limit = 2 ∧
    (getLeaderboard demoStore 1 2).totalUsers = getUserCount demoStore ∧
    (getLeaderboard demoStore 1 2).hasMore
      = decide ((1 - 1) * 2 + 2 < getUserCount demoStore) ∧
    ((getLeaderboard demoStore 1 2).entries.map (fun en => (en.username, en.rating))
      = (((getAllUsers demoStore).drop ((1 - 1) * 2)).take 2).map
          (fun u => (u.username, u.rating))) ∧
    (getUserCount demoStore ≤ (1 - 1) * 2 →
      (getLeaderboard demoStore 1 2).entries = [] ∧
      (getLeaderboard demoStore 1 2).hasMore = false) :=
  C3_pagination demoStore 1 2 (by decide) (by decide) (by decide)

/-- C4: for limit in [1,100], concatenating pages 1, 2, … until the first
`hasMore = false` response reproduces the entire walk-enriched snapshot,
with exactly `Count()` entries (no duplicates, no gaps, same order). -/
theorem C4_page_concat (s : Store) (limit : Nat) (h1 : 1 ≤ limit) (h2 : limit ≤ 100) :
    collectPages s limit (s.length + 1) 1 = allEntries s ∧
    (collectPages s limit (s.length + 1) 1).length = getUserCount s := by
  have hfuel : s.length ≤ (1 - 1) * limit + (s.length + 1) * limit := by
    have h := Nat.le_mul_of_pos_right (s.length + 1) h1
    omega
  have h := collectPages_eq s limit h1 (s.length + 1) 1 le_rfl hfuel
  simp only [Nat.sub_self, Nat.zero_mul, List.drop_zero] at h
  refine ⟨h, ?_⟩
  rw [h, allEntries_length]
  rfl

/-- Witness for C4_page_concat at the concrete scenario registry. -/
theorem C4_page_concat_witness :
    collectPages demoStore 2 (demoStore.length + 1) 1 = allEntries demoStore ∧
    (collectPages demoStore 2 (demoStore.length + 1) 1).length
      = getUserCount demoStore :=
  C4_page_concat demoStore 2 (by decide) (by decide)

/-- C5 counterexample: with 51 matching users, `SearchUser` truncates to 50
matches in iteration order before sorting, so the highest-rated match (u150,
inserted last) is dropped and the result differs from the spec's
sort-then-truncate description. -/
theorem C5_counterexample : searchUser bigStore "u" ≠ searchSpec bigStore "u" := by
  decide

/-- C5 (amended): whenever at most 50 entrants match the query, `SearchUser`
returns exactly the case-insensitive matches ordered by the
rating-desc/username-asc rule with their global ranks — i.e. it coincides
with the spec's sort-then-truncate description; with more than 50 matches
the code instead truncates (in map-iteration order) before sorting. -/
theorem C5_search (s : Store) (query : String)
    (h : (s.filter
        (fun u => isSubstr (query.data.map Char.toLower) (u.username.data.map Char.toLower))).length ≤ 50) :
    searchUser s query = searchSpec s query := by
  have h1 : (s.filter
        (fun u => isSubstr (query.data.map Char.toLower) (u.username.data.map Char.toLower))).take 50
      = s.filter (fun u => isSubstr (query.data.map Char.toLower) (u.username.data.map Char.toLower)) :=
    List.take_of_length_le h
  have h2 : (List.insertionSort userLE
        (s.filter (fun u => isSubstr (query.data.map Char.toLower) (u.username.data.map Char.toLower)))).take 50
      = List.insertionSort userLE
          (s.filter (fun u => isSubstr (query.data.map Char.toLower) (u.username.data.map Char.toLower))) :=
    List.take_of_length_le (by rw [List.length_insertionSort]; exact h)
  simp only [searchUser, searchSpec, searchUsers]
  rw [h1, h2]

/-- Witness for C5_search on a concrete two-user registry. -/
theorem C5_search_witness :
    (([⟨"bob", 300⟩, ⟨"alice", 200⟩] : Store).filter
        (fun u => isSubstr ("b".data.map Char.toLower) (u.username.data.map Char.toLower))).length ≤ 50 ∧
    searchUser [⟨"bob", 300⟩, ⟨"alice", 200⟩] "b"
      = searchSpec [⟨"bob", 300⟩, ⟨"alice", 200⟩] "b" :=
  ⟨by decide, C5_search [⟨"bob", 300⟩, ⟨"alice", 200⟩] "b" (by decide)⟩

/-- C8: the spec's concrete scenario.  After upserting A:5000, B:3000,
C:3000, D:100 the ranks are A=1, B=2, C=2, D=4; page 1 with limit 2 returns
exactly A (rank 1) and B (rank 2) with 4 total users and more pages; the
stats are total 4, min 100, max 5000, average 2775. -/
theorem C8_concrete_scenario :
    getUserRank demoStore "A" = some 1 ∧ getUserRank demoStore "B" = some 2 ∧
    getUserRank demoStore "C" = some 2 ∧ getUserRank demoStore "D" = some 4 ∧
    getLeaderboard demoStore 1 2
      = ⟨[⟨1, "A", 5000⟩, ⟨2, "B", 3000⟩], 1, 2, 4, true⟩ ∧
    getStats demoStore = (4, 100, 5000, 2775) := by
  refine ⟨by decide, by decide, by decide, by decide, by decide, ?_⟩
  rw [show demoStore = [⟨"A", 5000⟩, ⟨"B", 3000⟩, ⟨"C", 3000⟩, ⟨"D", 100⟩] from by decide]
  unfold getStats
  norm_num [List.foldl]

/-- Witness for C10_updateScore: the absent branch on the empty registry and
the present branch on a one-user registry. -/
theorem C10_updateScore_witness :
    updateScore ([] : Store) "A" 200 = (some "user not found", ([] : Store)) ∧
    updateScore [⟨"A", 100⟩] "A" 200 = (none, addUser [⟨"A", 100⟩] "A" 200) ∧
    getUser (addUser [⟨"A", 100⟩] "A" 200) "A" = some ⟨"A", 200⟩ ∧
    getUser (addUser [⟨"A", 100⟩] "A" 200) "B" = getUser [⟨"A", 100⟩] "B" :=
  ⟨(C10_updateScore [] "A" 200).1 rfl,
   ((C10_updateScore [⟨"A", 100⟩] "A" 200).2 ⟨"A", 100⟩ rfl (by decide) (by decide)).1,
   ((C10_updateScore [⟨"A", 100⟩] "A" 200).2 ⟨"A", 100⟩ rfl (by decide) (by decide)).2.1,
   ((C10_updateScore [⟨"A", 100⟩] "A" 200).2 ⟨"A", 100⟩ rfl (by decide) (by decide)).2.2 "B"
     (by decide)⟩

end Leaderboard
